import Mathlib

/-!
Shallow embedding of `src/daiso.py` (Hyakkin-RSS): a batch pipeline that
scrapes DAISO "new arrivals" pages, diffs the scraped products against a
persisted history, renders an RSS 2.0 feed and saves the updated history.

Python dictionaries (`exist_titles`, the history) are modelled as
insertion-ordered association lists with unique keys, with `dictGet`,
`dictContains` and `dictInsert` mirroring `d.get(k)`, `k in d` and
`d[k] = v`.  The module-level constant `NOW` (the run timestamp) is passed
as an explicit `now : String` parameter.  File-system state is passed in
explicitly: a file is `Option` content, and a JSON file that exists but
fails to parse is `some none`.
-/

namespace Daiso

/-- A scraped product, as built by `_parse_products_from_page`:
`{"title": title, "link": link}`. -/
structure Product where
  title : String
  link : String
deriving DecidableEq, Repr

/-- A Python `dict[str, str]` as an insertion-ordered association list with
unique keys (the history mapping title -> first-seen pubDate). -/
abbrev Hist := List (String × String)

/-- `d.get(k)` / the lookup part of `k in d`: first (unique) matching key. -/
def dictGet (d : Hist) (k : String) : Option String :=
  match d with
  | [] => none
  | (k', v) :: rest => if k' = k then some v else dictGet rest k

/-- Python `k in d`. -/
def dictContains (d : Hist) (k : String) : Bool :=
  (dictGet d k).isSome

/-- Python `d[k] = v`: update in place if the key is present, else append. -/
def dictInsert (d : Hist) (k v : String) : Hist :=
  match d with
  | [] => [(k, v)]
  | (k', v') :: rest => if k' = k then (k, v) :: rest else (k', v') :: dictInsert rest k v

/-- `ITEM_TEMPLATE.format(title=..., link=..., pubDate=...)` from the source:
each item is rendered by splicing title, link and pubDate into the fixed
XML fragment. -/
def ITEM_TEMPLATE (title link pubDate : String) : String :=
  "\n        <item>\n            <title>" ++ title ++
  "</title>\n            <link>" ++ link ++
  "</link>\n            <pubDate>" ++ pubDate ++
  "</pubDate>\n        </item>"

/-- `RSS_TEMPLATE.format(lastBuildDate=..., items=...)` from the source. -/
def RSS_TEMPLATE (lastBuildDate items : String) : String :=
  "<?xml version=\"1.0\" encoding=\"UTF-8\" ?>\n<rss version=\"2.0\">\n    <channel>\n        <title>DAISOの新着商品</title>\n        <link>https://jp.daisonet.com/collections/newarrival</link>\n        <description>DAISO 新着商品の一覧</description>\n        <lastBuildDate>" ++
  lastBuildDate ++
  "</lastBuildDate>\n        <language>ja</language>" ++
  items ++
  "\n    </channel>\n</rss>\n"

/-- `generate_rss(products, exist_products)`: the `for` loop accumulates
`items += ITEM_TEMPLATE.format(...)` with
`pubDate=exist_products.get(title, NOW)`, then splices into `RSS_TEMPLATE`. -/
def generate_rss (products : List Product) (exist_products : Hist) (now : String) : String :=
  RSS_TEMPLATE now
    (products.foldl
      (fun items product =>
        items ++
          ITEM_TEMPLATE product.title product.link
            ((dictGet exist_products product.title).getD now))
      "")

/-- An `<item>` element of a legacy RSS/XML file, as read back by
`get_exist_titles`: its `<title>` text and `<pubdate>` text. -/
structure XmlItem where
  title : String
  pubdate : String
deriving DecidableEq, Repr

/-- `get_exist_titles(xml_path)`: `{}` when the file does not exist, else the
dict comprehension over all `<item>` elements mapping title text to pubdate
text (later duplicates overwrite earlier ones, as in a Python dict). -/
def get_exist_titles (xmlFile : Option (List XmlItem)) : Hist :=
  match xmlFile with
  | none => []
  | some items => items.foldl (fun d it => dictInsert d it.title it.pubdate) []

/-- `load_history(history_path, xml_path)`.  `histFile` is `none` when the
JSON file does not exist, `some none` when it exists but `json.load` raises
(the `except` branch logs and falls through), and `some (some h)` when it
parses.  `xmlFile` is `none` when the XML file does not exist. -/
def load_history (histFile : Option (Option Hist)) (xmlFile : Option (List XmlItem)) : Hist :=
  match histFile with
  | some (some h) => h
  | _ =>
    match xmlFile with
    | some _ => get_exist_titles xmlFile
    | none => []

/-- One iteration of the diff loop in `main`:
`if product["title"] not in exist_titles: new_products.append(product);
exist_titles[product["title"]] = NOW`. -/
def mainStep (now : String) (acc : List Product × Hist) (product : Product) :
    List Product × Hist :=
  if dictContains acc.2 product.title then acc
  else (acc.1 ++ [product], dictInsert acc.2 product.title now)

/-- The pure core of `main` after `fetch_new_arrivals` and `load_history`:
the diff loop over `products` starting from the loaded history, then
`generate_rss(new_products, exist_titles)`.  Returns the new-product list,
the final history (the argument of `save_history`) and the RSS text written
to the output file. -/
structure MainResult where
  new_products : List Product
  final_hist : Hist
  rss : String
deriving Repr

def main_run (products : List Product) (loaded : Hist) (now : String) : MainResult :=
  let r := products.foldl (mainStep now) ([], loaded)
  ⟨r.1, r.2, generate_rss r.1 r.2 now⟩

/-- Specification-side description of the diff, in the words of the amended
claim: scanning the fetched products in order, keep a product exactly when
its title is not a key of the loaded history and has not been kept before
(`seenTitles` collects the kept titles), so the result holds exactly the
first fetched product of each title absent from the loaded history.  To be
compared with the new-product list computed by `main_run`. -/
def firstFetchedNew (loaded : Hist) : List Product → List String → List Product
  | [], _ => []
  | p :: rest, seenTitles =>
      if dictGet loaded p.title = none ∧ p.title ∉ seenTitles
      then p :: firstFetchedNew loaded rest (p.title :: seenTitles)
      else firstFetchedNew loaded rest seenTitles

/-! ## `fetch_new_arrivals`

The network is passed in as an environment: `page1` is the outcome of the
unguarded first `requests.get` on the base URL (its `raise_for_status`
propagates any error), abstracted to the last page number read from the
pagination nav by `_get_last_page` together with the products parsed from
page 1; `pageResult n` is the outcome of the guarded `requests.get` for
`?page=n` (`n ≥ 2`).  `Unit` stands for a `requests.RequestException`. -/

structure FetchEnv where
  page1 : Except Unit (Nat × List Product)
  pageResult : Nat → Except Unit (List Product)

/-- The inner coroutine `_fetch_page(page_num)`: the `try` body returns the
parsed product list, and `except requests.RequestException` logs the error
and returns `[]`. -/
def fetch_page (env : FetchEnv) (page_num : Nat) : List Product :=
  match env.pageResult page_num with
  | .ok products => products
  | .error _ => []

/-- `fetch_new_arrivals()`: fetch page 1 (errors propagate), read
`last_page`, extend with page 1's products, then gather
`_fetch_page(2) .. _fetch_page(last_page)` (`asyncio.gather` yields the
results in task order) and extend with each result in order.
`List.range' 2 (last_page - 1)` is Python's `range(2, last_page + 1)`. -/
def fetch_new_arrivals (env : FetchEnv) : Except Unit (List Product) :=
  match env.page1 with
  | .error e => .error e
  | .ok (last_page, page1_products) =>
      .ok ((List.range' 2 (last_page - 1)).foldl
        (fun all_products n => all_products ++ fetch_page env n) page1_products)

/-! ## The history path (`os.path.splitext`)

`main` derives `history_path = path.splitext(output)[0] + "_history.json"`.
`splitext` below follows CPython's `genericpath._splitext` with `sep='/'`
and `extsep='.'`: find the last `/` and the last `.`; if the last `.` is
after the last `/` and at least one character strictly between them is not
a `.`, split at the last `.`; otherwise the extension is empty. -/

/-- Python `str.rfind(c)`: index of the last occurrence, `-1` if absent. -/
def rfind (c : Char) : List Char → Int
  | [] => -1
  | x :: xs =>
      let r := rfind c xs
      if r ≥ 0 then r + 1 else if x = c then 0 else -1

/-- The body of `_splitext` once `sepIndex` and `dotIndex` are computed: the
`while` loop returns the split at `dotIndex` as soon as it sees a non-`.`
character between `sepIndex + 1` and `dotIndex`, and falls through to the
no-extension result when all of them are `.`. -/
def splitextIdx (p : List Char) (sepIndex dotIndex : Int) : List Char × List Char :=
  if dotIndex > sepIndex then
    if (List.range' (sepIndex + 1).toNat (dotIndex.toNat - (sepIndex + 1).toNat)).all
        (fun j => p.get? j = some '.') then (p, [])
    else (p.take dotIndex.toNat, p.drop dotIndex.toNat)
  else (p, [])

def splitextList (p : List Char) : List Char × List Char :=
  splitextIdx p (rfind '/' p) (rfind '.' p)

def splitext (p : String) : String × String :=
  let r := splitextList p.data
  (⟨r.1⟩, ⟨r.2⟩)

/-- `history_path = path.splitext(output)[0] + "_history.json"` in `main`;
this path is passed to both `load_history` and `save_history`. -/
def history_path (output : String) : String :=
  (splitext output).1 ++ "_history.json"

/-! ## The semaphore (`asyncio.Semaphore(5)`)

Pages 2..last are fetched by tasks that each run
`async with sem: ... requests.get ...`, i.e. acquire the counting semaphore,
perform the HTTP request ("in flight"), then release it.  We model the
interleaving as a transition system: each task is `waiting` (before the
acquire), `inFlight` (between acquire and release, the request is issued
here) or `done`; the scheduler may at any time let a waiting task acquire
(only when the counter is positive) or let an in-flight task release. -/

inductive Phase where
  | waiting
  | inFlight
  | done
deriving DecidableEq, Repr

structure SemState where
  sem : Nat
  tasks : List Phase
deriving DecidableEq, Repr

/-- The initial state for `n` remaining pages: counter 5, every task before
its `async with sem`. -/
def initState (n : Nat) : SemState :=
  ⟨5, List.replicate n .waiting⟩

/-- Number of tasks currently holding the semaphore (request in flight). -/
def countInFlight : List Phase → Nat
  | [] => 0
  | p :: rest => (if p = .inFlight then 1 else 0) + countInFlight rest

inductive SemStep : SemState → SemState → Prop
  | acquire (s : SemState) (i : Nat) :
      0 < s.sem → s.tasks.get? i = some .waiting →
      SemStep s ⟨s.sem - 1, s.tasks.set i .inFlight⟩
  | release (s : SemState) (i : Nat) :
      s.tasks.get? i = some .inFlight →
      SemStep s ⟨s.sem + 1, s.tasks.set i .done⟩

/-- States reachable from the initial state by any interleaving. -/
def SemReachable (n : Nat) (s : SemState) : Prop :=
  Relation.ReflTransGen SemStep (initState n) s

/-! ## Dictionary lemmas -/

theorem dictGet_append (a b : Hist) (k : String) :
    dictGet (a ++ b) k
      = match dictGet a k with
        | some v => some v
        | none => dictGet b k := by
  induction a with
  | nil => simp [dictGet]
  | cons x rest ih =>
    obtain ⟨k', v'⟩ := x
    by_cases h : k' = k <;> simp [dictGet, h, ih]

theorem dictGet_append_none_left {a b : Hist} {k : String}
    (h : dictGet (a ++ b) k = none) : dictGet a k = none := by
  rw [dictGet_append] at h
  cases ha : dictGet a k with
  | none => rfl
  | some v => rw [ha] at h; simp at h

theorem dictInsert_of_get_none {d : Hist} {k : String} (v : String)
    (h : dictGet d k = none) : dictInsert d k v = d ++ [(k, v)] := by
  induction d with
  | nil => simp [dictInsert]
  | cons x rest ih =>
    obtain ⟨k', v'⟩ := x
    simp only [dictGet] at h
    by_cases hk : k' = k
    · simp [hk] at h
    · simp only [hk, if_false] at h
      simp [dictInsert, hk, ih h]

theorem dictGet_map_const (l : List Product) (c t : String) :
    dictGet (l.map fun p => (p.title, c)) t
      = if t ∈ l.map Product.title then some c else none := by
  induction l with
  | nil => simp [dictGet]
  | cons p rest ih =>
    by_cases h : p.title = t
    · simp [dictGet, h]
    · have h' : ¬t = p.title := fun e => h e.symm
      simp [dictGet, h, h', ih]

theorem dictContains_false_iff (d : Hist) (k : String) :
    dictContains d k = false ↔ dictGet d k = none := by
  cases h : dictGet d k <;> simp [dictContains, h]

/-! ## Concatenation lemmas -/

theorem string_join_cons (s : String) (l : List String) :
    String.join (s :: l) = s ++ String.join l := by
  apply String.ext
  simp [String.join_eq, String.data_append]

theorem string_foldl_append {α : Type} (f : α → String) (l : List α) (s : String) :
    l.foldl (fun acc x => acc ++ f x) s = s ++ String.join (l.map f) := by
  induction l generalizing s with
  | nil => simp [String.join, String.append_empty]
  | cons x rest ih =>
    simp only [List.foldl_cons, List.map_cons]
    rw [ih, string_join_cons, ← String.append_assoc]

theorem foldl_append_eq_join {α β : Type} (f : α → List β) (l : List α) (s : List β) :
    l.foldl (fun acc x => acc ++ f x) s = s ++ (l.map f).flatten := by
  induction l generalizing s with
  | nil => simp
  | cons x rest ih => simp [ih, List.append_assoc]

/-! ## The diff loop of `main` -/

theorem main_fold_spec (now : String) (products : List Product) (acc : List Product × Hist) :
    ∃ fresh : List Product,
      products.foldl (mainStep now) acc
        = (acc.1 ++ fresh, acc.2 ++ fresh.map (fun p => (p.title, now))) ∧
      (∀ p ∈ fresh, p ∈ products ∧ dictGet acc.2 p.title = none) ∧
      (fresh.map Product.title).Nodup ∧
      (∀ p ∈ products, dictGet acc.2 p.title = none → p.title ∈ fresh.map Product.title) := by
  induction products generalizing acc with
  | nil => exact ⟨[], by simp, by simp, by simp, by simp⟩
  | cons p rest ih =>
    rcases Bool.eq_false_or_eq_true (dictContains acc.2 p.title) with hc | hc
    swap
    · -- new title: the product is appended and its title recorded with `now`
      have hget : dictGet acc.2 p.title = none := (dictContains_false_iff _ _).mp hc
      have hstep : mainStep now acc p = (acc.1 ++ [p], acc.2 ++ [(p.title, now)]) := by
        simp [mainStep, hc, dictInsert_of_get_none now hget]
      obtain ⟨fresh, hfold, hmem, hnodup, hcomp⟩ := ih (acc.1 ++ [p], acc.2 ++ [(p.title, now)])
      refine ⟨p :: fresh, ?_, ?_, ?_, ?_⟩
      · rw [List.foldl_cons, hstep, hfold]
        simp [List.append_assoc]
      · intro q hq
        rcases List.mem_cons.mp hq with rfl | hq'
        · exact ⟨List.mem_cons_self _ _, hget⟩
        · exact ⟨List.mem_cons_of_mem _ (hmem q hq').1,
            dictGet_append_none_left (hmem q hq').2⟩
      · rw [List.map_cons, List.nodup_cons]
        refine ⟨?_, hnodup⟩
        intro hin
        obtain ⟨q, hq, hqt⟩ := List.mem_map.mp hin
        have h2 := (hmem q hq).2
        rw [hqt, dictGet_append] at h2
        rw [hget] at h2
        simp [dictGet] at h2
      · intro q hq hq0
        rcases List.mem_cons.mp hq with rfl | hq'
        · simp
        · cases h2 : dictGet (acc.2 ++ [(p.title, now)]) q.title with
          | none =>
              exact List.mem_cons_of_mem _ (hcomp q hq' h2)
          | some v =>
              rw [dictGet_append, hq0] at h2
              simp only [dictGet] at h2
              by_cases ht : p.title = q.title
              · simp [ht]
              · simp [ht] at h2
    · -- known title: nothing changes
      obtain ⟨fresh, hfold, hmem, hnodup, hcomp⟩ := ih acc
      have hstep : mainStep now acc p = acc := by simp [mainStep, hc]
      refine ⟨fresh, ?_, ?_, hnodup, ?_⟩
      · rw [List.foldl_cons, hstep, hfold]
      · intro q hq
        exact ⟨List.mem_cons_of_mem _ (hmem q hq).1, (hmem q hq).2⟩
      · intro q hq hq0
        rcases List.mem_cons.mp hq with rfl | hq'
        · have hfalse := (dictContains_false_iff acc.2 q.title).mpr hq0
          rw [hc] at hfalse
          simp at hfalse
        · exact hcomp q hq' hq0

theorem dictGet_append_none_iff (a b : Hist) (k : String) :
    dictGet (a ++ b) k = none ↔ (dictGet a k = none ∧ dictGet b k = none) := by
  rw [dictGet_append]
  cases ha : dictGet a k <;> simp

/-- During the diff loop, the keys of the evolving history are the loaded
keys plus the titles kept so far, so the loop's acceptance test coincides
with `firstFetchedNew`'s: the accumulated new-product list extends by
exactly the first fetched occurrence of each title absent from `loaded`. -/
theorem main_fold_first_occ (now : String) (loaded : Hist) (products : List Product)
    (acc : List Product × Hist) (seenTitles : List String)
    (hinv : ∀ t, dictGet acc.2 t = none ↔ (dictGet loaded t = none ∧ t ∉ seenTitles)) :
    (products.foldl (mainStep now) acc).1
      = acc.1 ++ firstFetchedNew loaded products seenTitles := by
  induction products generalizing acc seenTitles with
  | nil => simp [firstFetchedNew]
  | cons p rest ih =>
    by_cases hcp : dictContains acc.2 p.title = true
    · -- title already a key: loop skips, and the spec-side test fails too
      have hstep : mainStep now acc p = acc := by simp [mainStep, hcp]
      have hcond : ¬(dictGet loaded p.title = none ∧ p.title ∉ seenTitles) := by
        intro hand
        have hnone := (hinv p.title).mpr hand
        have hfalse := (dictContains_false_iff acc.2 p.title).mpr hnone
        rw [hcp] at hfalse
        simp at hfalse
      rw [List.foldl_cons, hstep, ih acc seenTitles hinv]
      simp [firstFetchedNew, hcond]
    · -- new title: loop keeps the product and records the title
      have hcf : dictContains acc.2 p.title = false := by
        cases hb : dictContains acc.2 p.title
        · rfl
        · exact absurd hb hcp
      have hget : dictGet acc.2 p.title = none := (dictContains_false_iff _ _).mp hcf
      have hcond : dictGet loaded p.title = none ∧ p.title ∉ seenTitles :=
        (hinv p.title).mp hget
      have hstep : mainStep now acc p = (acc.1 ++ [p], acc.2 ++ [(p.title, now)]) := by
        simp [mainStep, hcf, dictInsert_of_get_none now hget]
      have hinv' : ∀ t, dictGet (acc.2 ++ [(p.title, now)]) t = none ↔
          (dictGet loaded t = none ∧ t ∉ (p.title :: seenTitles)) := by
        intro t
        rw [dictGet_append_none_iff, hinv t]
        have hsingle : dictGet [(p.title, now)] t = none ↔ ¬p.title = t := by
          by_cases he : p.title = t <;> simp [dictGet, he]
        rw [hsingle, List.mem_cons]
        constructor
        · rintro ⟨⟨h1, h2⟩, h3⟩
          exact ⟨h1, fun hor => hor.elim (fun he => h3 he.symm) h2⟩
        · rintro ⟨h1, h2⟩
          exact ⟨⟨h1, fun hs => h2 (Or.inr hs)⟩, fun he => h2 (Or.inl he.symm)⟩
      rw [List.foldl_cons, hstep,
        ih (acc.1 ++ [p], acc.2 ++ [(p.title, now)]) (p.title :: seenTitles) hinv']
      simp [firstFetchedNew, hcond]

theorem firstFetchedNew_mem_absent (loaded : Hist) (products : List Product) :
    ∀ (seenTitles : List String) (p : Product),
      p ∈ firstFetchedNew loaded products seenTitles → dictGet loaded p.title = none := by
  induction products with
  | nil =>
      intro seenTitles p h
      simp [firstFetchedNew] at h
  | cons q rest ih =>
      intro seenTitles p h
      by_cases hc : dictGet loaded q.title = none ∧ q.title ∉ seenTitles
      · rw [show firstFetchedNew loaded (q :: rest) seenTitles
            = q :: firstFetchedNew loaded rest (q.title :: seenTitles) from by
          simp [firstFetchedNew, hc]] at h
        rcases List.mem_cons.mp h with rfl | h'
        · exact hc.1
        · exact ih (q.title :: seenTitles) p h'
      · rw [show firstFetchedNew loaded (q :: rest) seenTitles
            = firstFetchedNew loaded rest seenTitles from by
          simp [firstFetchedNew, hc]] at h
        exact ih seenTitles p h

/-! ## Claim theorems -/

/-- C1, counterexample: with an empty loaded history and two fetched products
sharing the title "A", the second product's title is absent from the loaded
history, yet the product is not rendered (only the first occurrence is), so
the feed does not contain exactly the fetched products whose titles are
absent from the loaded history. -/
theorem duplicate_title_not_rendered :
    dictGet ([] : Hist) "A" = none ∧
    (⟨"A", "l2"⟩ : Product) ∈ ([⟨"A", "l1"⟩, ⟨"A", "l2"⟩] : List Product) ∧
    (main_run [⟨"A", "l1"⟩, ⟨"A", "l2"⟩] [] "now").new_products = [⟨"A", "l1"⟩] ∧
    (⟨"A", "l2"⟩ : Product) ∉ (main_run [⟨"A", "l1"⟩, ⟨"A", "l2"⟩] [] "now").new_products := by
  exact ⟨rfl, by decide, by decide, by decide⟩

/-- C1, amended: the rendered product list is exactly `firstFetchedNew`,
i.e. it contains, for each fetched title absent from the loaded history,
exactly the first fetched product carrying that title, in fetch order and
nothing else; in particular a fetched product whose title is already a key
of the loaded history is never rendered. -/
theorem rendered_products_first_occ (products : List Product) (loaded : Hist)
    (now : String) :
    (main_run products loaded now).new_products = firstFetchedNew loaded products [] ∧
    (∀ p ∈ products, dictGet loaded p.title ≠ none →
        p ∉ (main_run products loaded now).new_products) := by
  have hinv0 : ∀ t, dictGet (([], loaded) : List Product × Hist).2 t = none ↔
      (dictGet loaded t = none ∧ t ∉ ([] : List String)) := by
    intro t
    simp
  have hfold := main_fold_first_occ now loaded products ([], loaded) [] hinv0
  have hnew : (main_run products loaded now).new_products
      = firstFetchedNew loaded products [] := by
    simpa [main_run] using hfold
  refine ⟨hnew, ?_⟩
  intro p _ hne hmemf
  rw [hnew] at hmemf
  exact hne (firstFetchedNew_mem_absent loaded products [] p hmemf)

theorem rendered_products_first_occ_witness :
    (main_run [⟨"A", "l1"⟩, ⟨"A", "l2"⟩] [] "now").new_products
        = firstFetchedNew [] [⟨"A", "l1"⟩, ⟨"A", "l2"⟩] [] ∧
    firstFetchedNew [] [⟨"A", "l1"⟩, ⟨"A", "l2"⟩] [] = [⟨"A", "l1"⟩] ∧
    (⟨"B", "lb"⟩ : Product) ∉
      (main_run [⟨"A", "l1"⟩, ⟨"B", "lb"⟩] [("B", "old")] "now").new_products :=
  ⟨(rendered_products_first_occ [⟨"A", "l1"⟩, ⟨"A", "l2"⟩] [] "now").1,
   by decide,
   (rendered_products_first_occ [⟨"A", "l1"⟩, ⟨"B", "lb"⟩] [("B", "old")] "now").2
     ⟨"B", "lb"⟩ (by decide) (by decide)⟩

/-- C2: `generate_rss` renders one item per product, in order, carrying the
product's title and link unchanged, with pubDate the history value for the
title when the title is a key of the mapping and `now` otherwise. -/
theorem generate_rss_item_fields (products : List Product) (exist_products : Hist)
    (now : String) :
    generate_rss products exist_products now
      = RSS_TEMPLATE now (String.join (products.map (fun p =>
          ITEM_TEMPLATE p.title p.link
            (match dictGet exist_products p.title with
             | some d => d
             | none => now)))) := by
  unfold generate_rss
  rw [string_foldl_append, String.empty_append]
  have hf : (fun p : Product =>
        ITEM_TEMPLATE p.title p.link ((dictGet exist_products p.title).getD now))
      = (fun p : Product =>
        ITEM_TEMPLATE p.title p.link
          (match dictGet exist_products p.title with
           | some d => d
           | none => now)) := by
    funext p
    cases h : dictGet exist_products p.title <;> simp [h]
  rw [hf]

/-- C3: `load_history` returns the JSON file's contents when that file exists
and parses; otherwise it falls back to the mapping extracted from the XML
file's items when that file exists; otherwise it returns the empty mapping. -/
theorem load_history_fallback (histFile : Option (Option Hist))
    (xmlFile : Option (List XmlItem)) :
    (∀ h, histFile = some (some h) → load_history histFile xmlFile = h) ∧
    ((histFile = none ∨ histFile = some none) → ∀ items, xmlFile = some items →
      load_history histFile xmlFile
        = items.foldl (fun d it => dictInsert d it.title it.pubdate) []) ∧
    ((histFile = none ∨ histFile = some none) → xmlFile = none →
      load_history histFile xmlFile = []) := by
  refine ⟨?_, ?_, ?_⟩
  · rintro h rfl
    rfl
  · rintro (rfl | rfl) items rfl <;> rfl
  · rintro (rfl | rfl) rfl <;> rfl

theorem load_history_fallback_witness :
    load_history (some none) (some [⟨"t", "d"⟩]) = [("t", "d")] := by
  have h := (load_history_fallback (some none) (some [⟨"t", "d"⟩])).2.1
    (Or.inr rfl) [⟨"t", "d"⟩] rfl
  rw [h]
  rfl

/-- C5: across one run of `main`, the history is append-only: the saved
history is the loaded history followed by one `(title, now)` entry per
newly rendered product, every appended entry's title was absent from the
loaded history, and every loaded entry is still looked up unchanged. -/
theorem history_append_only (products : List Product) (loaded : Hist) (now : String) :
    ∃ extra : Hist,
      (main_run products loaded now).final_hist = loaded ++ extra ∧
      extra = (main_run products loaded now).new_products.map (fun p => (p.title, now)) ∧
      (∀ e ∈ extra, e.2 = now ∧ dictGet loaded e.1 = none) ∧
      (∀ t v, dictGet loaded t = some v →
        dictGet (main_run products loaded now).final_hist t = some v) := by
  obtain ⟨fresh, hfold, hmem, -, -⟩ := main_fold_spec now products ([], loaded)
  have hnew : (main_run products loaded now).new_products = fresh := by
    simp [main_run, hfold]
  have hfin : (main_run products loaded now).final_hist
      = loaded ++ fresh.map (fun p => (p.title, now)) := by
    simp [main_run, hfold]
  refine ⟨fresh.map (fun p => (p.title, now)), hfin, by rw [hnew], ?_, ?_⟩
  · intro e he
    obtain ⟨q, hq, rfl⟩ := List.mem_map.mp he
    exact ⟨rfl, (hmem q hq).2⟩
  · intro t v hv
    rw [hfin, dictGet_append, hv]

theorem history_append_only_witness :
    dictGet (main_run [⟨"A", "la"⟩] [("B", "old")] "ts").final_hist "B" = some "old" := by
  obtain ⟨extra, -, -, -, h4⟩ := history_append_only [⟨"A", "la"⟩] [("B", "old")] "ts"
  exact h4 "B" "old" (by decide)

/-- C9: the RSS text written by `main` renders every item with pubDate equal
to the run timestamp `now`: each rendered product's title was inserted into
the history with `now` before `generate_rss` is called, so its lookup yields
`now`. -/
theorem rss_pubdate_all_now (products : List Product) (loaded : Hist) (now : String) :
    (main_run products loaded now).rss
      = RSS_TEMPLATE now (String.join ((main_run products loaded now).new_products.map
          (fun p => ITEM_TEMPLATE p.title p.link now))) := by
  obtain ⟨fresh, hfold, hmem, -, -⟩ := main_fold_spec now products ([], loaded)
  have hnew : (main_run products loaded now).new_products = fresh := by
    simp [main_run, hfold]
  have hrss : (main_run products loaded now).rss
      = generate_rss fresh (loaded ++ fresh.map (fun p => (p.title, now))) now := by
    simp [main_run, hfold, generate_rss]
  rw [hrss, hnew]
  unfold generate_rss
  rw [string_foldl_append, String.empty_append]
  have hf : ∀ p ∈ fresh,
      ITEM_TEMPLATE p.title p.link
          ((dictGet (loaded ++ fresh.map fun q => (q.title, now)) p.title).getD now)
        = ITEM_TEMPLATE p.title p.link now := by
    intro p hp
    have h1 : dictGet loaded p.title = none := (hmem p hp).2
    have h2 : dictGet (fresh.map fun q => (q.title, now)) p.title = some now := by
      rw [dictGet_map_const, if_pos (List.mem_map_of_mem _ hp)]
    simp [dictGet_append, h1, h2]
  rw [List.map_congr_left hf]

/-- C10: the titles of the rendered products of a run are pairwise distinct:
only the first fetched product of each title enters the new-product list. -/
theorem new_product_titles_nodup (products : List Product) (loaded : Hist) (now : String) :
    ((main_run products loaded now).new_products.map Product.title).Nodup := by
  obtain ⟨fresh, hfold, -, hnodup, -⟩ := main_fold_spec now products ([], loaded)
  have hnew : (main_run products loaded now).new_products = fresh := by
    simp [main_run, hfold]
  rw [hnew]
  exact hnodup

/-- Environment where the unguarded page-1 request fails while every other
page would succeed. -/
def envPage1Down : FetchEnv :=
  ⟨.error (), fun _ => .ok [⟨"A", "l"⟩]⟩

/-- Environment with 3 pages where only the request for page 2 fails. -/
def envPage2Down : FetchEnv :=
  ⟨.ok (3, [⟨"p1", "l1"⟩]), fun n => if n = 2 then .error () else .ok [⟨"p3", "l3"⟩]⟩

/-- Environment with 3 pages, all requests succeeding. -/
def envThreePages : FetchEnv :=
  ⟨.ok (3, [⟨"p1", "l1"⟩]), fun n => if n = 2 then .ok [⟨"p2", "l2"⟩] else .ok [⟨"p3", "l3"⟩]⟩

/-- C4, counterexample: a network error on page 1 is not treated as a
zero-product page: the unguarded `raise_for_status` makes the whole fetch
fail, and no other page's products are returned. -/
theorem fetch_error_page1_fails_run :
    envPage1Down.page1 = Except.error () ∧
    fetch_new_arrivals envPage1Down = Except.error () :=
  ⟨rfl, rfl⟩

/-- C4, amended: for the pages fetched by `_fetch_page` (pages 2 through the
last page), a request error is treated as a zero-product page: the page
contributes the empty list and the fetch still succeeds with the products of
every other page. -/
theorem fetch_page_error_skipped (env : FetchEnv) (n last_page : Nat)
    (page1_products : List Product)
    (h1 : env.page1 = .ok (last_page, page1_products))
    (hn : env.pageResult n = .error ()) :
    fetch_page env n = [] ∧
    fetch_new_arrivals env
      = .ok (page1_products
          ++ ((List.range' 2 (last_page - 1)).map (fetch_page env)).flatten) := by
  constructor
  · simp [fetch_page, hn]
  · simp [fetch_new_arrivals, h1, foldl_append_eq_join]

theorem fetch_page_error_skipped_witness :
    fetch_page envPage2Down 2 = [] ∧
    fetch_new_arrivals envPage2Down
      = .ok ([⟨"p1", "l1"⟩] ++ ((List.range' 2 2).map (fetch_page envPage2Down)).flatten) :=
  fetch_page_error_skipped envPage2Down 2 3 [⟨"p1", "l1"⟩] rfl rfl

/-- C6: when the initial fetch succeeds, `fetch_new_arrivals` returns page
1's products first, followed by the per-page results of pages 2 through the
last page concatenated in page order. -/
theorem fetch_concat_order (env : FetchEnv) (last_page : Nat)
    (page1_products : List Product)
    (h1 : env.page1 = .ok (last_page, page1_products)) :
    fetch_new_arrivals env
      = .ok (page1_products
          ++ ((List.range' 2 (last_page - 1)).map (fetch_page env)).flatten) := by
  simp [fetch_new_arrivals, h1, foldl_append_eq_join]

theorem fetch_concat_order_witness :
    fetch_new_arrivals envThreePages
      = .ok ([⟨"p1", "l1"⟩] ++ ((List.range' 2 2).map (fetch_page envThreePages)).flatten) :=
  fetch_concat_order envThreePages 3 [⟨"p1", "l1"⟩] rfl

/-! ## Semaphore lemmas -/

theorem countInFlight_replicate_waiting (n : Nat) :
    countInFlight (List.replicate n .waiting) = 0 := by
  induction n with
  | zero => rfl
  | succ m ih => simp [List.replicate, countInFlight, ih]

theorem countInFlight_set (l : List Phase) (i : Nat) (a b : Phase)
    (h : l.get? i = some a) :
    countInFlight (l.set i b) + (if a = Phase.inFlight then 1 else 0)
      = countInFlight l + (if b = Phase.inFlight then 1 else 0) := by
  induction l generalizing i with
  | nil => simp at h
  | cons x rest ih =>
    cases i with
    | zero =>
        simp only [List.get?] at h
        injection h with h
        subst h
        simp only [List.set, countInFlight]
        omega
    | succ j =>
        simp only [List.get?] at h
        have hr := ih j h
        simp only [List.set, countInFlight]
        omega

theorem semStep_preserves (s s' : SemState) (h : SemStep s s')
    (hinv : s.sem + countInFlight s.tasks = 5) :
    s'.sem + countInFlight s'.tasks = 5 := by
  cases h with
  | acquire i hpos hget =>
      have hc := countInFlight_set s.tasks i .waiting .inFlight hget
      simp at hc
      show s.sem - 1 + countInFlight (s.tasks.set i .inFlight) = 5
      omega
  | release i hget =>
      have hc := countInFlight_set s.tasks i .inFlight .done hget
      simp at hc
      show s.sem + 1 + countInFlight (s.tasks.set i .done) = 5
      omega

/-- C7: in every state reachable by any interleaving of the page tasks, at
most 5 of them hold the semaphore, i.e. at most 5 HTTP requests are in
flight at once. -/
theorem semaphore_at_most_five (n : Nat) (s : SemState) (h : SemReachable n s) :
    countInFlight s.tasks ≤ 5 := by
  have key : s.sem + countInFlight s.tasks = 5 := by
    induction h with
    | refl => simp [initState, countInFlight_replicate_waiting]
    | tail hst hstep ih => exact semStep_preserves _ _ hstep ih
  omega

theorem semaphore_at_most_five_witness : countInFlight (initState 7).tasks ≤ 5 :=
  semaphore_at_most_five 7 (initState 7) Relation.ReflTransGen.refl

/-! ## History path -/

theorem splitextList_append (p : List Char) :
    (splitextList p).1 ++ (splitextList p).2 = p := by
  unfold splitextList splitextIdx
  split_ifs <;> simp

/-- C8: `main` reads and writes the history at `history_path output`, which
is the output path with its `splitext` extension dropped and
`"_history.json"` appended: the output path splits as root plus extension,
and the history path is that root followed by `"_history.json"`. -/
theorem history_path_replaces_ext (output : String) :
    output = (splitext output).1 ++ (splitext output).2 ∧
    history_path output = (splitext output).1 ++ "_history.json" := by
  constructor
  · apply String.ext
    rw [String.data_append]
    exact (splitextList_append output.data).symm
  · rfl

theorem history_path_default_output :
    history_path "docs/daiso_new_arrivals.xml" = "docs/daiso_new_arrivals_history.json" := by
  decide

end Daiso
